import Mathlib

/-!
Verification of the EOF (Empirical Orthogonal Function) analysis engine of
the xeofs repository, pandas front-end `xeofs/pandas/eof.py`.

The repository source available here is the pandas adapter `EOF` class; the
numeric base class `_EOF_base` (truncated SVD, scaling conventions,
reconstruction, preprocessing) and the label transformer
`_DataFrameTransformer` are not part of the visible sources, so they are
modelled from the specification where needed; each such definition carries a
doc comment starting with "Modelled from the spec:".

Real (floating-point) arithmetic is embedded as exact rational arithmetic
over ℚ.  The square root needed by the "scaling = 2" convention
(the square root of the explained variance) is irrational in general, so it
enters the model as an explicit parameter `c` constrained by the hypothesis
`c ^ 2 = n - 1`, `0 < c`.
-/

/-- A pandas axis label: either an integer or a string. -/
inductive Label where
  | int (i : ℤ)
  | str (s : String)
deriving DecidableEq

/-- A pandas `Index`: an optional name together with the list of labels. -/
structure PIndex where
  name : Option String
  labels : List Label
deriving DecidableEq

/-- A pandas `DataFrame`: a row index, a column index, and the rectangular
block of (rational-valued) entries, row-major. -/
structure DataFrame where
  index : PIndex
  columns : PIndex
  values : List (List ℚ)
deriving DecidableEq

/-- A Python value passed as the `X` argument of `EOF.__init__`: either a
`pandas.DataFrame` or any other object. -/
inductive PyValue where
  | dataframe (d : DataFrame)
  | other
deriving DecidableEq

/-- The error taxonomy of the engine (spec section 7), together with the
`ValueError` that the pandas adapter itself raises on a non-DataFrame
input (src `eof.py`, lines 80-81). -/
inductive EOFError where
  | valueError
  | invalidInput
  | degenerateFeature
  | notSolved
  | invalidModeSelection
deriving DecidableEq

/-- Number of samples (rows) of a DataFrame. -/
def nRowsOf (X : DataFrame) : ℕ := X.values.length

/-- Number of features (columns) of a DataFrame; pandas keeps the value
block rectangular with exactly one entry per column label. -/
def nColsOf (X : DataFrame) : ℕ := X.columns.labels.length

/-- Entry of a row at column position `j` (0 outside the row, as a total
function). -/
def entryCol (row : List ℚ) (j : ℕ) : ℚ := row.getD j 0

/-- Mean of column `j` of the value block. -/
def colMean (X : DataFrame) (j : ℕ) : ℚ :=
  (X.values.map (fun row => entryCol row j)).sum / (nRowsOf X : ℚ)

/-- Whether feature `j` has zero standard deviation: every sample equals the
column mean.  This is exactly "std = 0" over the reals, independently of the
degrees-of-freedom convention. -/
def stdZero (X : DataFrame) (j : ℕ) : Prop :=
  ∀ row ∈ X.values, entryCol row j = colMean X j

instance (X : DataFrame) (j : ℕ) : Decidable (stdZero X j) :=
  List.decidableBAll (fun row => entryCol row j = colMean X j) X.values

/-- Modelled from the spec: the centering step of the missing `_EOF_base`
preprocessing (spec section 4.1) — the per-feature mean is subtracted from
every sample, unconditionally. -/
def centered (X : DataFrame) : List (List ℚ) :=
  X.values.map (fun row =>
    (List.range (nColsOf X)).map (fun j => entryCol row j - colMean X j))

/-- Modelled from the spec: the weighting step of the missing `_EOF_base`
preprocessing — every feature column is multiplied by the corresponding
weight entry. -/
def weighted (A : List (List ℚ)) (w : List ℚ) : List (List ℚ) :=
  A.map (fun row => (List.range row.length).map (fun j => entryCol row j * w.getD j 1))

/-- Modelled from the spec: the mode-truncation rule of the missing
`_EOF_base.__init__` — `n_modes = min(requested, n_samples, n_features)`
when requested, `min(n_samples, n_features)` otherwise (spec section 3). -/
def clampModes (nreq : Option ℕ) (n p : ℕ) : ℕ :=
  match nreq with
  | none => min n p
  | some r => min r (min n p)

/-- The state produced by a successful construction: the retained mode count,
the centered (and weighted) value block, and the sample/feature labels stored
by the transformer.  The division of each centered column by its standard
deviation (when `norm` is set) is not representable exactly over ℚ — the
standard deviation is a square root — and no claim depends on the normalized
values; the model keeps the centered, weighted block and represents the
normalization step by its (exact) error behaviour. -/
structure Constructed where
  k : ℕ
  A : List (List ℚ)
  index_samples : PIndex
  index_features : PIndex
deriving DecidableEq

/-- The construction pipeline of `EOF.__init__` (src `eof.py`, lines 71-93).
The type check on `X` is taken directly from the source; the transformer
step (storing the sample and feature labels) and the base-class
preprocessing (centering, the zero-standard-deviation check when `norm` is
set, weighting, mode clamping) are modelled from the spec, sections 3, 4.1,
and 7, because `_DataFrameTransformer` and `_EOF_base` are not among the
visible sources. -/
def construct (x : PyValue) (nreq : Option ℕ) (norm : Bool)
    (w : Option (List ℚ)) : Except EOFError Constructed :=
  match x with
  | PyValue.other => Except.error EOFError.valueError
  | PyValue.dataframe X =>
    let n := nRowsOf X
    let p := nColsOf X
    let A := centered X
    if norm ∧ ∃ j ∈ List.range p, stdZero X j then
      Except.error EOFError.degenerateFeature
    else
      match w with
      | none => Except.ok ⟨clampModes nreq n p, A, X.index, X.columns⟩
      | some l =>
        if l.length = p then
          Except.ok ⟨clampModes nreq n p, weighted A l, X.index, X.columns⟩
        else
          Except.error EOFError.invalidInput

instance {ε α : Type} [DecidableEq ε] [DecidableEq α] : DecidableEq (Except ε α) :=
  fun a b =>
  match a, b with
  | Except.ok x, Except.ok y =>
    if h : x = y then isTrue (by rw [h]) else isFalse (by intro hc; cases hc; exact h rfl)
  | Except.ok _, Except.error _ => isFalse (by intro hc; cases hc)
  | Except.error _, Except.ok _ => isFalse (by intro hc; cases hc)
  | Except.error x, Except.error y =>
    if h : x = y then isTrue (by rw [h]) else isFalse (by intro hc; cases hc; exact h rfl)

/-- Modelled from the spec: the state of a solved decomposition engine
(the missing `_EOF_base` after `solve()`, spec section 3).  `r` is the full
number of singular values available before truncation
(`min n p`, as produced by an economy-size SVD), `k` the number of retained
modes, `U`/`S`/`V` the full factors with the SVD contract as invariants:
`S` non-negative and non-increasing, `U` and `V` with orthonormal columns.
`backFactor` is the per-feature factor applied by `reconstruct_X` when it
reverses the preprocessor weighting and normalization (spec section 4.2);
an engine built with no weights and `norm = False` has `backFactor = 1`. -/
structure SolvedEOF (n p : ℕ) where
  r : ℕ
  hr : r = min n p
  k : ℕ
  hk : k ≤ r
  U : Matrix (Fin n) (Fin r) ℚ
  S : Fin r → ℚ
  V : Matrix (Fin p) (Fin r) ℚ
  backFactor : Fin p → ℚ
  S_nonneg : ∀ i : Fin r, 0 ≤ S i
  S_antitone : ∀ i j : Fin r, i ≤ j → S j ≤ S i
  U_orth : Matrix.transpose U * U = 1
  V_orth : Matrix.transpose V * V = 1

/-- Modelled from the spec: a solved engine as held by the pandas adapter —
the core factors together with the sample and feature labels stored by
`_DataFrameTransformer` at fit time, and the correlation/p-value blocks of
`eofs_as_correlation` (held as data: Pearson correlations and
t-distribution p-values have no exact rational form, and the claims about
them concern only their labelling). -/
structure SolvedPandasEOF (n p : ℕ) extends SolvedEOF n p where
  index_samples : PIndex
  index_features : PIndex
  corrVals : Matrix (Fin p) (Fin k) ℚ
  pvalVals : Matrix (Fin p) (Fin k) ℚ

/-- The retained (truncated) left factor. -/
def Uk {n p : ℕ} (e : SolvedEOF n p) : Matrix (Fin n) (Fin e.k) ℚ :=
  Matrix.of fun a i => e.U a (Fin.castLE e.hk i)

/-- The retained singular values, `S[0..k)`. -/
def Sk {n p : ℕ} (e : SolvedEOF n p) : Fin e.k → ℚ :=
  fun i => e.S (Fin.castLE e.hk i)

/-- The retained (truncated) right factor. -/
def Vk {n p : ℕ} (e : SolvedEOF n p) : Matrix (Fin p) (Fin e.k) ℚ :=
  Matrix.of fun b i => e.V b (Fin.castLE e.hk i)

/-- Modelled from the spec: `explained_variance` of the missing `_EOF_base`
— the sample variance attributable to mode `i`,
`S[i]^2 / (n_samples - 1)` (spec section 4.2). -/
def expvarVal {n p : ℕ} (e : SolvedEOF n p) (i : Fin e.k) : ℚ :=
  (Sk e i) ^ 2 / ((n : ℚ) - 1)

/-- Modelled from the spec: the total variance of the preprocessed matrix,
the sum of `S[j]^2 / (n_samples - 1)` over the FULL set of singular values
available before truncation (spec section 4.2). -/
def totalVar {n p : ℕ} (e : SolvedEOF n p) : ℚ :=
  ∑ j : Fin e.r, (e.S j) ^ 2 / ((n : ℚ) - 1)

/-- Modelled from the spec: `explained_variance_ratio` of the missing
`_EOF_base` — the explained variance normalized by the total variance over
the full (untruncated) set of singular values. -/
def evrVal {n p : ℕ} (e : SolvedEOF n p) (i : Fin e.k) : ℚ :=
  expvarVal e i / totalVar e

/-- Modelled from the spec: `eofs(scaling)` of the missing `_EOF_base`
(spec section 4.2): `0` = raw singular vectors `V`, `1` = `V` scaled by the
singular values, `2` = `V` scaled by the square root of the explained
variance, i.e. by `S[i] / sqrt(n_samples - 1)`.  The parameter `c` stands
for `sqrt(n_samples - 1)`, which is irrational in general; theorems supply
it with the hypothesis `c ^ 2 = n - 1`, `0 < c`.  Valid scalings are 0-2. -/
def eofsM {n p : ℕ} (e : SolvedEOF n p) (c : ℚ) : ℕ → Matrix (Fin p) (Fin e.k) ℚ
  | 0 => Vk e
  | 1 => Matrix.of fun b i => Vk e b i * Sk e i
  | _ => Matrix.of fun b i => Vk e b i * (Sk e i / c)

/-- Modelled from the spec: `pcs(scaling)` of the missing `_EOF_base` —
`U` rescaled by the convention complementary to `eofs(scaling)` (spec
section 4.2), so that the product of the two carries exactly one factor of
the singular values: `0` = `U` scaled by the singular values, `1` = raw
`U`, `2` = `U` scaled by `sqrt(n_samples - 1)` (the parameter `c`). -/
def pcsM {n p : ℕ} (e : SolvedEOF n p) (c : ℚ) : ℕ → Matrix (Fin n) (Fin e.k) ℚ
  | 0 => Matrix.of fun a i => Uk e a i * Sk e i
  | 1 => Uk e
  | _ => Matrix.of fun a i => Uk e a i * c

/-- A mode selector, mirroring the `Optional[Union[int, List[int], slice]]`
argument of `reconstruct_X` (src `eof.py`, lines 142-145): nothing (all
modes), a single 1-based mode number, an explicit list, or a contiguous
1-based inclusive range. -/
inductive ModeSel where
  | all
  | one (i : ℕ)
  | many (l : List ℕ)
  | range (a b : ℕ)
deriving DecidableEq

/-- The list of 1-based mode numbers a selector denotes, for an engine with
`k` retained modes. -/
def selIndices (k : ℕ) : ModeSel → List ℕ
  | ModeSel.all => List.range' 1 k
  | ModeSel.one i => [i]
  | ModeSel.many l => l
  | ModeSel.range a b => List.range' a (b + 1 - a)

/-- Modelled from the spec: the validation of a mode selection — every
requested 1-based index must lie in `[1, n_modes]` (spec section 4.2). -/
def validSel (k : ℕ) (sel : ModeSel) : Bool :=
  (selIndices k sel).all (fun m => decide (1 ≤ m) && decide (m ≤ k))

/-- The contribution of the 1-based mode `m` to entry `(a, b)` of the
reconstruction: `U[a, m-1] * S[m-1] * V[b, m-1]` (0 for an out-of-range
mode; validation rules those out). -/
def termAt {n p : ℕ} (e : SolvedEOF n p) (a : Fin n) (b : Fin p) (m : ℕ) : ℚ :=
  if h : m - 1 < e.r then
    e.U a ⟨m - 1, h⟩ * e.S ⟨m - 1, h⟩ * e.V b ⟨m - 1, h⟩
  else 0

/-- Modelled from the spec: the core reconstruction
`U[:, selected] @ diag(S[selected]) @ V[:, selected]^T` over a list of
selected 1-based modes (spec section 4.2). -/
def reconMat {n p : ℕ} (e : SolvedEOF n p) (ms : List ℕ) : Matrix (Fin n) (Fin p) ℚ :=
  Matrix.of fun a b => (ms.map (fun m => termAt e a b m)).sum

/-- Modelled from the spec: `reconstruct_X` of the missing `_EOF_base` —
validate the selection, rebuild from the selected modes, then reverse the
preprocessor weighting and normalization by the per-feature factor
`backFactor` (spec section 4.2). -/
def reconBase {n p : ℕ} (e : SolvedEOF n p) (sel : ModeSel) :
    Except EOFError (Matrix (Fin n) (Fin p) ℚ) :=
  if validSel e.k sel then
    Except.ok (Matrix.of fun a b => reconMat e (selIndices e.k sel) a b * e.backFactor b)
  else
    Except.error EOFError.invalidModeSelection

/-- A matrix flattened to the row-major list-of-rows value block of a
DataFrame. -/
def matToLists {n p : ℕ} (M : Matrix (Fin n) (Fin p) ℚ) : List (List ℚ) :=
  (List.finRange n).map (fun a => (List.finRange p).map (fun b => M a b))

/-- The shared mode index `pd.Index(range(1, n_modes + 1), name="mode")`
(src `eof.py`, line 93, `self._idx_mode`). -/
def idxMode (k : ℕ) : PIndex :=
  ⟨some "mode", (List.range k).map (fun i => Label.int ((i : ℤ) + 1))⟩

/-- `EOF.singular_values` (src `eof.py`, lines 95-102): the retained
singular values, unchanged, wrapped with column label "singular_values" and
the mode index. -/
def singular_values_df {n p : ℕ} (e : SolvedPandasEOF n p) : DataFrame :=
  ⟨idxMode e.k, ⟨none, [Label.str "singular_values"]⟩,
    (List.finRange e.k).map (fun i => [Sk e.toSolvedEOF i])⟩

/-- `EOF.explained_variance` (src `eof.py`, lines 104-111): the explained
variances wrapped with column label "explained_variance" and the mode
index. -/
def explained_variance_df {n p : ℕ} (e : SolvedPandasEOF n p) : DataFrame :=
  ⟨idxMode e.k, ⟨none, [Label.str "explained_variance"]⟩,
    (List.finRange e.k).map (fun i => [expvarVal e.toSolvedEOF i])⟩

/-- `EOF.explained_variance_ratio` (src `eof.py`, lines 113-120): the
explained variance ratios wrapped with column label
"explained_variance_ratio" and the mode index. -/
def explained_variance_ratio_df {n p : ℕ} (e : SolvedPandasEOF n p) : DataFrame :=
  ⟨idxMode e.k, ⟨none, [Label.str "explained_variance_ratio"]⟩,
    (List.finRange e.k).map (fun i => [evrVal e.toSolvedEOF i])⟩

/-- `EOF.eofs` (src `eof.py`, lines 122-126): the scaled EOFs, rows
labelled by the stored feature labels (the transformer back-transform) and
columns by the mode index. -/
def eofs_df {n p : ℕ} (e : SolvedPandasEOF n p) (c : ℚ) (s : ℕ) : DataFrame :=
  ⟨e.index_features, idxMode e.k, matToLists (eofsM e.toSolvedEOF c s)⟩

/-- `EOF.pcs` (src `eof.py`, lines 128-132): the scaled PCs, rows labelled
by the stored sample labels and columns by the mode index. -/
def pcs_df {n p : ℕ} (e : SolvedPandasEOF n p) (c : ℚ) (s : ℕ) : DataFrame :=
  ⟨e.index_samples, idxMode e.k, matToLists (pcsM e.toSolvedEOF c s)⟩

/-- `EOF.eofs_as_correlation` (src `eof.py`, lines 134-140): the
correlation and p-value blocks, each with feature rows and mode columns. -/
def eofs_as_correlation_df {n p : ℕ} (e : SolvedPandasEOF n p) :
    DataFrame × DataFrame :=
  (⟨e.index_features, idxMode e.k, matToLists e.corrVals⟩,
   ⟨e.index_features, idxMode e.k, matToLists e.pvalVals⟩)

/-- `EOF.reconstruct_X` (src `eof.py`, lines 142-149): the base
reconstruction wrapped into a DataFrame whose row index is the stored
sample index (`Xrec.index = self._tf.index_samples`) and whose columns are
the stored feature labels. -/
def reconstruct_X_df {n p : ℕ} (e : SolvedPandasEOF n p) (sel : ModeSel) :
    Except EOFError DataFrame :=
  (reconBase e.toSolvedEOF sel).map
    (fun M => ⟨e.index_samples, e.index_features, matToLists M⟩)

/-- Entry `(i, j)` of a DataFrame value block (0 outside, as a total
function). -/
def entryAt (df : DataFrame) (i j : ℕ) : ℚ := entryCol (df.values.getD i []) j

/-- A concrete solved engine on a 2x2 preprocessed matrix (factors
`U = V = I`, singular values `(1, 0)`, both modes retained, no weighting or
normalization), used to instantiate hypotheses of the claim theorems. -/
def eEx : SolvedPandasEOF 2 2 where
  r := 2
  hr := rfl
  k := 2
  hk := le_refl 2
  U := 1
  S := ![1, 0]
  V := 1
  backFactor := fun _ => 1
  S_nonneg := by decide
  S_antitone := by decide
  U_orth := by simp
  V_orth := by simp
  index_samples := ⟨none, [Label.int 10, Label.int 20]⟩
  index_features := ⟨none, [Label.str "a", Label.str "b"]⟩
  corrVals := 0
  pvalVals := 0

/-- A concrete solved engine of full width 2 whose second singular value is
zero, retaining a single mode: the retained mode already carries all the
variance although `n_modes` is smaller than `min(n_samples, n_features)`. -/
def eRankDef : SolvedEOF 2 2 where
  r := 2
  hr := rfl
  k := 1
  hk := by omega
  U := 1
  S := ![1, 0]
  V := 1
  backFactor := fun _ => 1
  S_nonneg := by decide
  S_antitone := by decide
  U_orth := by simp
  V_orth := by simp

/-- A concrete solved 1x1 engine whose reconstruction reversal factor is 2,
as left by a preprocessor that divided the single feature by a weight of
1/2 (or normalized by a standard deviation of 2). -/
def eWeighted : SolvedEOF 1 1 where
  r := 1
  hr := rfl
  k := 1
  hk := le_refl 1
  U := 1
  S := ![1]
  V := 1
  backFactor := fun _ => 2
  S_nonneg := by decide
  S_antitone := by decide
  U_orth := by simp
  V_orth := by simp

/-- A concrete 2x2 input DataFrame whose second feature is constant
(zero standard deviation). -/
def dfConst : DataFrame :=
  ⟨⟨none, [Label.int 0, Label.int 1]⟩,
   ⟨none, [Label.str "x", Label.str "y"]⟩,
   [[1, 5], [3, 5]]⟩

/-- A concrete 2x2 input DataFrame with both features non-constant. -/
def dfGen : DataFrame :=
  ⟨⟨none, [Label.int 0, Label.int 1]⟩,
   ⟨none, [Label.str "x", Label.str "y"]⟩,
   [[1, 2], [3, 7]]⟩

theorem sum_map_range (k : ℕ) (f : ℕ → ℚ) :
    ((List.range k).map f).sum = ∑ i ∈ Finset.range k, f i := by
  induction k with
  | zero => simp
  | succ k ih => rw [List.range_succ, Finset.sum_range_succ]; simp [ih]

theorem reconMat_all_apply {n p : ℕ} (e : SolvedEOF n p) (a : Fin n) (b : Fin p) :
    reconMat e (List.range' 1 e.k) a b = ∑ i : Fin e.k, Uk e a i * Sk e i * Vk e b i := by
  simp only [reconMat, Matrix.of_apply]
  rw [List.range'_eq_map_range, List.map_map, sum_map_range]
  simp only [Function.comp_def]
  rw [← Fin.sum_univ_eq_sum_range (fun i => termAt e a b (1 + i)) e.k]
  refine Finset.sum_congr rfl (fun i _ => ?_)
  have h1 : 1 + (i : ℕ) - 1 = (i : ℕ) := by omega
  have h2 : (i : ℕ) < e.r := lt_of_lt_of_le i.isLt e.hk
  simp only [Function.comp, termAt, h1, dif_pos h2]
  rfl

theorem validSel_iff (k : ℕ) (sel : ModeSel) :
    validSel k sel = true ↔ ∀ m ∈ selIndices k sel, 1 ≤ m ∧ m ≤ k := by
  simp [validSel, List.all_eq_true]

theorem validSel_all (k : ℕ) : validSel k ModeSel.all = true := by
  rw [validSel_iff]
  intro m hm
  rw [selIndices, List.mem_range'_1] at hm
  omega

theorem eofs_pcs_product {n p : ℕ} (e : SolvedEOF n p) (c : ℚ) (hc : c ≠ 0)
    (s : ℕ) (_ : s ≤ 2) :
    eofsM e c s * Matrix.transpose (pcsM e c s) =
      Matrix.transpose (reconMat e (selIndices e.k ModeSel.all)) := by
  have key : ∀ b a, (∑ i : Fin e.k, eofsM e c s b i * pcsM e c s a i) =
      ∑ i : Fin e.k, Uk e a i * Sk e i * Vk e b i := by
    intro b a
    refine Finset.sum_congr rfl (fun i _ => ?_)
    match s with
    | 0 => simp only [eofsM, pcsM, Matrix.of_apply]; ring
    | 1 => simp only [eofsM, pcsM, Matrix.of_apply]; ring
    | (m + 2) =>
      simp only [eofsM, pcsM, Matrix.of_apply]
      field_simp
      ring
  ext b a
  rw [Matrix.mul_apply, Matrix.transpose_apply]
  simp only [selIndices]
  rw [reconMat_all_apply]
  simpa [Matrix.transpose_apply] using key b a

theorem matToLists_length {n p : ℕ} (M : Matrix (Fin n) (Fin p) ℚ) :
    (matToLists M).length = n := by
  simp [matToLists]

theorem matToLists_rows {n p : ℕ} (M : Matrix (Fin n) (Fin p) ℚ) :
    ∀ row ∈ matToLists M, row.length = p := by
  intro row hrow
  simp only [matToLists, List.mem_map] at hrow
  obtain ⟨a, _, rfl⟩ := hrow
  simp

theorem construct_df_eq (X : DataFrame) (nreq : Option ℕ) (norm : Bool)
    (w : Option (List ℚ)) :
    construct (PyValue.dataframe X) nreq norm w =
      (if norm ∧ ∃ j ∈ List.range (nColsOf X), stdZero X j then
        Except.error EOFError.degenerateFeature
      else
        match w with
        | none => Except.ok ⟨clampModes nreq (nRowsOf X) (nColsOf X), centered X,
            X.index, X.columns⟩
        | some l =>
          if l.length = nColsOf X then
            Except.ok ⟨clampModes nreq (nRowsOf X) (nColsOf X), weighted (centered X) l,
              X.index, X.columns⟩
          else
            Except.error EOFError.invalidInput) := rfl

theorem construct_df_none_eq (X : DataFrame) (nreq : Option ℕ) (norm : Bool) :
    construct (PyValue.dataframe X) nreq norm none =
      (if norm ∧ ∃ j ∈ List.range (nColsOf X), stdZero X j then
        Except.error EOFError.degenerateFeature
      else
        Except.ok ⟨clampModes nreq (nRowsOf X) (nColsOf X), centered X,
          X.index, X.columns⟩) := by
  rw [construct_df_eq]

theorem construct_df_some_eq (X : DataFrame) (nreq : Option ℕ) (norm : Bool)
    (l : List ℚ) :
    construct (PyValue.dataframe X) nreq norm (some l) =
      (if norm ∧ ∃ j ∈ List.range (nColsOf X), stdZero X j then
        Except.error EOFError.degenerateFeature
      else if l.length = nColsOf X then
        Except.ok ⟨clampModes nreq (nRowsOf X) (nColsOf X), weighted (centered X) l,
          X.index, X.columns⟩
      else
        Except.error EOFError.invalidInput) := by
  rw [construct_df_eq]

/-- C2: for every solved engine, `singular_values()` returns the retained
singular values unchanged — a column of length `n_modes` whose entries are
all non-negative and non-increasing. -/
theorem c2_singular_values_sorted {n p : ℕ} (e : SolvedPandasEOF n p) :
    (singular_values_df e).values =
      (List.finRange e.k).map (fun i => [Sk e.toSolvedEOF i]) ∧
    (singular_values_df e).values.length = e.k ∧
    ∀ i j : Fin e.k, i ≤ j →
      0 ≤ Sk e.toSolvedEOF j ∧ Sk e.toSolvedEOF j ≤ Sk e.toSolvedEOF i := by
  refine ⟨rfl, by simp only [singular_values_df, List.length_map, List.length_finRange],
    fun i j hij => ?_⟩
  exact ⟨e.S_nonneg _, e.S_antitone _ _ hij⟩

/-- C2 witness: the concrete engine `eEx` instantiates the ordering
guarantee of `singular_values()`. -/
theorem c2_witness :
    0 ≤ Sk eEx.toSolvedEOF ⟨1, by decide⟩ ∧
    Sk eEx.toSolvedEOF ⟨1, by decide⟩ ≤ Sk eEx.toSolvedEOF ⟨0, by decide⟩ :=
  (c2_singular_values_sorted eEx).2.2 ⟨0, by decide⟩ ⟨1, by decide⟩ (by decide)

/-- C4: for every solved engine and every retained mode, the
`explained_variance()` column holds `S[i]^2 / (n_samples - 1)`, where
`n_samples` is the number of rows of the input matrix (the row dimension
`n` of the engine). -/
theorem c4_explained_variance_formula {n p : ℕ} (e : SolvedPandasEOF n p) :
    (explained_variance_df e).values =
      (List.finRange e.k).map
        (fun i => [(Sk e.toSolvedEOF i) ^ 2 / ((n : ℚ) - 1)]) ∧
    (explained_variance_df e).values.length = e.k :=
  ⟨rfl, by simp only [explained_variance_df, List.length_map, List.length_finRange]⟩

/-- C9: every per-mode output of a solved engine — singular values,
explained variance, explained variance ratio, EOFs, PCs, and the
correlation and p-value blocks — carries on its mode axis the one shared
index `1, 2, ..., n_modes` named "mode" (src `eof.py`, line 93 and the
query methods). -/
theorem c9_mode_index {n p : ℕ} (e : SolvedPandasEOF n p) (c : ℚ) (s : ℕ) :
    (singular_values_df e).index = idxMode e.k ∧
    (explained_variance_df e).index = idxMode e.k ∧
    (explained_variance_ratio_df e).index = idxMode e.k ∧
    (eofs_df e c s).columns = idxMode e.k ∧
    (pcs_df e c s).columns = idxMode e.k ∧
    (eofs_as_correlation_df e).1.columns = idxMode e.k ∧
    (eofs_as_correlation_df e).2.columns = idxMode e.k ∧
    (idxMode e.k).name = some "mode" ∧
    (idxMode e.k).labels = (List.range e.k).map (fun i => Label.int ((i : ℤ) + 1)) :=
  ⟨rfl, rfl, rfl, rfl, rfl, rfl, rfl, rfl, rfl⟩

/-- C8: the constructor type-checks `X` first: any non-DataFrame input
raises `ValueError` before any preprocessing, and a DataFrame input never
raises `ValueError` (src `eof.py`, lines 80-81). -/
theorem c8_type_check :
    (∀ (nreq : Option ℕ) (norm : Bool) (w : Option (List ℚ)),
      construct PyValue.other nreq norm w = Except.error EOFError.valueError) ∧
    (∀ (X : DataFrame) (nreq : Option ℕ) (norm : Bool) (w : Option (List ℚ)),
      construct (PyValue.dataframe X) nreq norm w ≠ Except.error EOFError.valueError) := by
  constructor
  · intro nreq norm w
    rfl
  · intro X nreq norm w h
    by_cases hcond : norm ∧ ∃ j ∈ List.range (nColsOf X), stdZero X j
    · match w with
      | none =>
        rw [construct_df_none_eq, if_pos hcond] at h
        cases h
      | some l =>
        rw [construct_df_some_eq, if_pos hcond] at h
        cases h
    · match w with
      | none =>
        rw [construct_df_none_eq, if_neg hcond] at h
        cases h
      | some l =>
        rw [construct_df_some_eq, if_neg hcond] at h
        by_cases hl : l.length = nColsOf X
        · rw [if_pos hl] at h
          cases h
        · rw [if_neg hl] at h
          cases h

/-- C8 witness: the type check at a concrete non-DataFrame input. -/
theorem c8_witness :
    construct PyValue.other none false none = Except.error EOFError.valueError :=
  c8_type_check.1 none false none

/-- C10: for every solved engine built from an input DataFrame `X` (so the
transformer stored `X.index` as the sample index) and every successful
reconstruction, the returned DataFrame's row index equals the sample index
of `X` (src `eof.py`, line 148: `Xrec.index = self._tf.index_samples`). -/
theorem c10_sample_index {n p : ℕ} (X : DataFrame) (e : SolvedPandasEOF n p)
    (hfit : e.index_samples = X.index) (sel : ModeSel) (df : DataFrame)
    (hok : reconstruct_X_df e sel = Except.ok df) :
    df.index = X.index := by
  rw [reconstruct_X_df, reconBase] at hok
  by_cases hv : validSel e.k sel = true
  · rw [if_pos hv] at hok
    cases hok
    exact hfit
  · rw [if_neg hv] at hok
    cases hok

/-- C6: for every solved engine, a mode selector containing an index
outside `[1, n_modes]` makes `reconstruct_X` fail with
`InvalidModeSelection`, and a selector with all indices in range yields a
DataFrame whose value block has the shape of the preprocessed input
(`n_samples` rows of `n_features` entries). -/
theorem c6_mode_selection {n p : ℕ} (e : SolvedPandasEOF n p) (sel : ModeSel) :
    ((∃ m ∈ selIndices e.k sel, m < 1 ∨ e.k < m) →
      reconstruct_X_df e sel = Except.error EOFError.invalidModeSelection) ∧
    ((∀ m ∈ selIndices e.k sel, 1 ≤ m ∧ m ≤ e.k) →
      ∃ df : DataFrame, reconstruct_X_df e sel = Except.ok df ∧
        df.values.length = n ∧ ∀ row ∈ df.values, row.length = p) := by
  constructor
  · intro hbad
    obtain ⟨m, hm, hout⟩ := hbad
    have hnv : ¬ (validSel e.k sel = true) := by
      rw [validSel_iff]
      intro hall
      obtain ⟨h1, h2⟩ := hall m hm
      omega
    rw [reconstruct_X_df, reconBase, if_neg hnv]
    rfl
  · intro hall
    have hv : validSel e.k sel = true := (validSel_iff _ _).mpr hall
    rw [reconstruct_X_df, reconBase, if_pos hv]
    exact ⟨_, rfl, matToLists_length _, matToLists_rows _⟩

/-- C6 witness: on the concrete engine `eEx` (2 modes), selecting mode 5
fails with `InvalidModeSelection` while selecting mode 1 succeeds with a
2x2 value block. -/
theorem c6_witness :
    reconstruct_X_df eEx (ModeSel.one 5) = Except.error EOFError.invalidModeSelection ∧
    ∃ df : DataFrame, reconstruct_X_df eEx (ModeSel.one 1) = Except.ok df ∧
      df.values.length = 2 ∧ ∀ row ∈ df.values, row.length = 2 := by
  constructor
  · exact (c6_mode_selection eEx (ModeSel.one 5)).1
      ⟨5, by simp [selIndices], Or.inr (by decide)⟩
  · exact (c6_mode_selection eEx (ModeSel.one 1)).2
      (by intro m hm; simp [selIndices] at hm; subst hm; exact ⟨le_refl 1, by decide⟩)

/-- C7: constructing the engine with `norm = True` on an input having a
zero-standard-deviation feature fails with `DegenerateFeature` during the
preprocessing, instead of producing a preprocessed matrix at all. -/
theorem c7_degenerate_feature (X : DataFrame) (nreq : Option ℕ)
    (w : Option (List ℚ)) (hz : ∃ j < nColsOf X, stdZero X j) :
    construct (PyValue.dataframe X) nreq true w = Except.error EOFError.degenerateFeature := by
  rw [construct_df_eq, if_pos]
  obtain ⟨j, hj, hzz⟩ := hz
  exact ⟨rfl, j, List.mem_range.mpr hj, hzz⟩

/-- C7 witness: the concrete DataFrame `dfConst`, whose second feature is
the constant 5, makes construction with `norm = True` fail with
`DegenerateFeature`. -/
theorem c7_witness :
    construct (PyValue.dataframe dfConst) none true none =
      Except.error EOFError.degenerateFeature := by
  refine c7_degenerate_feature dfConst none none ⟨1, by decide, ?_⟩
  intro row hrow
  simp only [dfConst, List.mem_cons, List.not_mem_nil, or_false] at hrow
  rcases hrow with rfl | rfl <;> norm_num [entryCol, colMean, dfConst, nRowsOf]

/-- C5: the engine retains `min(requested, n_samples, n_features)` modes
when a mode count is requested; a successful construction never depends on
the requested count, so any over-large request is silently clamped to
`min(n_samples, n_features)` rather than raising an error. -/
theorem c5_n_modes_clamped (X : DataFrame) (nreq : Option ℕ) (norm : Bool)
    (w : Option (List ℚ)) (st : Constructed)
    (hok : construct (PyValue.dataframe X) nreq norm w = Except.ok st) :
    st.k = clampModes nreq (nRowsOf X) (nColsOf X) ∧
    (∀ req : ℕ, ∃ st2 : Constructed,
      construct (PyValue.dataframe X) (some req) norm w = Except.ok st2 ∧
      st2.k = min req (min (nRowsOf X) (nColsOf X))) := by
  by_cases hcond : norm ∧ ∃ j ∈ List.range (nColsOf X), stdZero X j
  · match w with
    | none =>
      rw [construct_df_none_eq, if_pos hcond] at hok
      cases hok
    | some l =>
      rw [construct_df_some_eq, if_pos hcond] at hok
      cases hok
  · match w with
    | none =>
      rw [construct_df_none_eq, if_neg hcond] at hok
      cases hok
      refine ⟨rfl, fun req =>
        ⟨⟨min req (min (nRowsOf X) (nColsOf X)), centered X, X.index, X.columns⟩, ?_, rfl⟩⟩
      rw [construct_df_none_eq, if_neg hcond]
      rfl
    | some l =>
      rw [construct_df_some_eq, if_neg hcond] at hok
      by_cases hl : l.length = nColsOf X
      · rw [if_pos hl] at hok
        cases hok
        refine ⟨rfl, fun req =>
          ⟨⟨min req (min (nRowsOf X) (nColsOf X)), weighted (centered X) l,
            X.index, X.columns⟩, ?_, rfl⟩⟩
        rw [construct_df_some_eq, if_neg hcond, if_pos hl]
        rfl
      · rw [if_neg hl] at hok
        cases hok

/-- C5 witness: on the 2x2 input `dfGen`, requesting 5 modes succeeds and
is clamped to 2. -/
theorem c5_witness :
    ∃ st2 : Constructed,
      construct (PyValue.dataframe dfGen) (some 5) false none = Except.ok st2 ∧
      st2.k = 2 := by
  have hok : construct (PyValue.dataframe dfGen) none false none =
      Except.ok ⟨2, centered dfGen, dfGen.index, dfGen.columns⟩ := by
    rw [construct_df_none_eq, if_neg (by simp)]
    rfl
  obtain ⟨st2, h1, h2⟩ := (c5_n_modes_clamped dfGen none false none _ hok).2 5
  exact ⟨st2, h1, by rw [h2]; decide⟩

/-- C10 witness: a reconstruction on the concrete engine `eEx`, built from
an input whose sample index is `[10, 20]`, returns that index. -/
theorem c10_witness :
    ∃ df : DataFrame, reconstruct_X_df eEx (ModeSel.many []) = Except.ok df ∧
      df.index = ⟨none, [Label.int 10, Label.int 20]⟩ := by
  have hok : reconstruct_X_df eEx (ModeSel.many []) = Except.ok
      ⟨⟨none, [Label.int 10, Label.int 20]⟩, ⟨none, [Label.str "a", Label.str "b"]⟩,
        matToLists (Matrix.of fun a b =>
          reconMat eEx.toSolvedEOF (selIndices eEx.k (ModeSel.many [])) a b *
            eEx.backFactor b)⟩ := by
    rw [reconstruct_X_df, reconBase, if_pos (show validSel eEx.k (ModeSel.many []) = true by decide)]
    rfl
  exact ⟨_, hok,
    c10_sample_index ⟨⟨none, [Label.int 10, Label.int 20]⟩, ⟨none, []⟩, []⟩ eEx rfl
      (ModeSel.many []) _ hok⟩

/-- C1 (amended): for every solved engine and every scaling in 0-2, the
product `eofs(scaling) @ pcs(scaling)^T` equals the transpose of the
all-modes core reconstruction `U_k diag(S_k) V_k^T` of the preprocessed
matrix — so it is independent of the chosen scaling — and it equals the
matrix returned by `reconstruct_X` with all modes selected exactly when the
reversal of the preprocessor weighting and normalization is trivial
(`backFactor = 1`, i.e. no weights and `norm = False`). -/
theorem c1_complementary_scaling {n p : ℕ} (e : SolvedEOF n p) (c : ℚ)
    (hc2 : c ^ 2 = (n : ℚ) - 1) (hcpos : 0 < c) (s : ℕ) (hs : s ≤ 2) :
    eofsM e c s * Matrix.transpose (pcsM e c s) =
      Matrix.transpose (reconMat e (selIndices e.k ModeSel.all)) ∧
    (∀ s2 : ℕ, s2 ≤ 2 → eofsM e c s * Matrix.transpose (pcsM e c s) =
      eofsM e c s2 * Matrix.transpose (pcsM e c s2)) ∧
    ((∀ b : Fin p, e.backFactor b = 1) →
      reconBase e ModeSel.all =
        Except.ok (Matrix.transpose (eofsM e c s * Matrix.transpose (pcsM e c s)))) := by
  have hc : c ≠ 0 := ne_of_gt hcpos
  have h1 := eofs_pcs_product e c hc s hs
  refine ⟨h1, fun s2 hs2 => by rw [h1, eofs_pcs_product e c hc s2 hs2], fun hbf => ?_⟩
  rw [reconBase, if_pos (validSel_all e.k), h1, Matrix.transpose_transpose]
  congr 1
  ext a b
  simp [hbf]

/-- C1 counterexample: on the concrete engine `eWeighted`, whose
preprocessing reversal multiplies the single feature by 2, the product
`eofs(0) @ pcs(0)^T` (transposed into sample-by-feature orientation) is NOT
the matrix returned by `reconstruct_X` with all modes: `reconstruct_X`
reverses the preprocessor weighting/normalization while `eofs`/`pcs` stay
on the preprocessed scale. -/
theorem c1_counterexample :
    reconBase eWeighted ModeSel.all ≠
      Except.ok (Matrix.transpose
        (eofsM eWeighted 1 0 * Matrix.transpose (pcsM eWeighted 1 0))) := by
  intro h
  rw [reconBase, if_pos (validSel_all _)] at h
  injection h with h2
  have h00 := congrFun (congrFun h2 0) 0
  have hsel : selIndices eWeighted.k ModeSel.all = [1] := by decide
  rw [hsel] at h00
  simp only [Matrix.of_apply, reconMat, termAt, eofsM, pcsM, Uk, Sk, Vk,
    Matrix.mul_apply, Matrix.transpose_apply, List.map_cons, List.map_nil,
    List.sum_cons, List.sum_nil, Fin.sum_univ_one, eWeighted] at h00
  norm_num [Matrix.one_apply] at h00

/-- C1 witness: the complementary-scaling identity instantiated on the
concrete engine `eEx` (2 samples, `c = sqrt(n - 1) = 1`, scaling 0), whose
reversal factors are all 1. -/
theorem c1_witness :
    eofsM eEx.toSolvedEOF 1 0 * Matrix.transpose (pcsM eEx.toSolvedEOF 1 0) =
      Matrix.transpose (reconMat eEx.toSolvedEOF (selIndices eEx.k ModeSel.all)) ∧
    reconBase eEx.toSolvedEOF ModeSel.all =
      Except.ok (Matrix.transpose
        (eofsM eEx.toSolvedEOF 1 0 * Matrix.transpose (pcsM eEx.toSolvedEOF 1 0))) := by
  have h := c1_complementary_scaling eEx.toSolvedEOF 1 (by norm_num) (by norm_num)
    0 (by norm_num)
  exact ⟨h.1, h.2.2 (fun b => rfl)⟩

/-- C3 (amended): for every solved engine with at least two samples, every
`explained_variance_ratio()` entry lies in `[0, 1]` and the entries sum to
at most 1; the normalizing denominator is the total over the full
(untruncated) set of singular values; and — provided some singular value is
nonzero — the sum equals 1 exactly when every singular value beyond the
retained modes is zero (in particular whenever `n_modes` equals the full
number of available singular values, but also for rank-deficient data with
fewer retained modes). -/
theorem c3_explained_variance_ratio_bounds {n p : ℕ} (e : SolvedEOF n p)
    (hn : 2 ≤ n) :
    (∀ i : Fin e.k, 0 ≤ evrVal e i ∧ evrVal e i ≤ 1) ∧
    (∑ i : Fin e.k, evrVal e i) ≤ 1 ∧
    (∀ i : Fin e.k, evrVal e i =
      ((Sk e i) ^ 2 / ((n : ℚ) - 1)) / (∑ j : Fin e.r, (e.S j) ^ 2 / ((n : ℚ) - 1))) ∧
    ((∃ j : Fin e.r, e.S j ≠ 0) →
      ((∑ i : Fin e.k, evrVal e i) = 1 ↔
        ∀ j : Fin e.r, e.k ≤ (j : ℕ) → e.S j = 0)) := by
  have hD : ((n : ℚ) - 1) ≠ 0 := by
    have h2 : (2 : ℚ) ≤ (n : ℚ) := by exact_mod_cast hn
    linarith
  have hT0 : (0 : ℚ) ≤ ∑ j : Fin e.r, (e.S j) ^ 2 :=
    Finset.sum_nonneg (fun j _ => sq_nonneg _)
  have hevr : ∀ i : Fin e.k, evrVal e i = (Sk e i) ^ 2 / ∑ j : Fin e.r, (e.S j) ^ 2 := by
    intro i
    rw [evrVal, expvarVal, totalVar, ← Finset.sum_div, div_div_div_cancel_right₀ hD]
  have hterm : ∀ i : Fin e.k, (Sk e i) ^ 2 ≤ ∑ j : Fin e.r, (e.S j) ^ 2 := by
    intro i
    exact Finset.single_le_sum (fun j _ => sq_nonneg (e.S j)) (Finset.mem_univ _)
  have hretained : ∑ j ∈ Finset.univ.map (Fin.castLEEmb e.hk), (e.S j) ^ 2 =
      ∑ i : Fin e.k, (Sk e i) ^ 2 := by
    rw [Finset.sum_map]
    rfl
  have hmem : ∀ j : Fin e.r, j ∈ Finset.univ.map (Fin.castLEEmb e.hk) ↔ (j : ℕ) < e.k := by
    intro j
    simp only [Finset.mem_map, Finset.mem_univ, true_and]
    constructor
    · rintro ⟨i, rfl⟩
      simp only [Fin.castLEEmb, Function.Embedding.coeFn_mk, Fin.coe_castLE]
      exact i.isLt
    · intro h
      exact ⟨⟨(j : ℕ), h⟩, by ext; simp [Fin.castLEEmb]⟩
  have hsumle : ∑ i : Fin e.k, (Sk e i) ^ 2 ≤ ∑ j : Fin e.r, (e.S j) ^ 2 := by
    rw [← hretained]
    exact Finset.sum_le_sum_of_subset_of_nonneg (Finset.subset_univ _)
      (fun j _ _ => sq_nonneg _)
  have hsumeq : (∑ i : Fin e.k, evrVal e i) =
      (∑ i : Fin e.k, (Sk e i) ^ 2) / ∑ j : Fin e.r, (e.S j) ^ 2 := by
    simp only [hevr]
    rw [Finset.sum_div]
  refine ⟨fun i => ⟨?_, ?_⟩, ?_, fun i => rfl, fun hex => ?_⟩
  · rw [hevr]
    exact div_nonneg (sq_nonneg _) hT0
  · rw [hevr]
    rcases eq_or_lt_of_le hT0 with hT | hT
    · rw [← hT, div_zero]
      norm_num
    · exact (div_le_one hT).mpr (hterm i)
  · rw [hsumeq]
    rcases eq_or_lt_of_le hT0 with hT | hT
    · rw [← hT, div_zero]
      norm_num
    · exact (div_le_one hT).mpr hsumle
  · obtain ⟨j0, hj0⟩ := hex
    have hTpos : (0 : ℚ) < ∑ j : Fin e.r, (e.S j) ^ 2 := by
      have h1 : (0 : ℚ) < (e.S j0) ^ 2 := by positivity
      exact lt_of_lt_of_le h1
        (Finset.single_le_sum (fun j _ => sq_nonneg (e.S j)) (Finset.mem_univ j0))
    rw [hsumeq, div_eq_one_iff_eq (ne_of_gt hTpos)]
    constructor
    · intro heq j hkj
      have hsplit : ∑ j2 ∈ Finset.univ \ Finset.univ.map (Fin.castLEEmb e.hk), (e.S j2) ^ 2
          + ∑ j2 ∈ Finset.univ.map (Fin.castLEEmb e.hk), (e.S j2) ^ 2
          = ∑ j2 : Fin e.r, (e.S j2) ^ 2 :=
        Finset.sum_sdiff (Finset.subset_univ _)
      have htail : ∑ j2 ∈ Finset.univ \ Finset.univ.map (Fin.castLEEmb e.hk),
          (e.S j2) ^ 2 = 0 := by
        rw [hretained] at hsplit
        linarith
      have hz := (Finset.sum_eq_zero_iff_of_nonneg
        (fun j2 _ => sq_nonneg (e.S j2))).mp htail j
        (by rw [Finset.mem_sdiff, hmem]; exact ⟨Finset.mem_univ j, by omega⟩)
      exact (pow_eq_zero_iff (two_ne_zero)).mp hz
    · intro hz
      rw [← hretained]
      refine Finset.sum_subset (Finset.subset_univ _) (fun j _ hj => ?_)
      rw [hmem] at hj
      rw [hz j (by omega)]
      norm_num

/-- C3 counterexample: on the concrete engine `eRankDef` — a rank-deficient
factorization with singular values `(1, 0)` and a single retained mode —
the `explained_variance_ratio()` entries sum to exactly 1 although
`n_modes = 1` is NOT the full rank `min(n_samples, n_features) = 2`,
refuting "equality exactly when n_modes equals the full rank". -/
theorem c3_counterexample :
    (∑ i : Fin eRankDef.k, evrVal eRankDef i) = 1 ∧ eRankDef.k ≠ eRankDef.r := by
  refine ⟨?_, by decide⟩
  simp only [evrVal, expvarVal, totalVar, Sk, eRankDef]
  rw [Fin.sum_univ_one, Fin.sum_univ_two]
  norm_num

/-- C3 witness: the bounds and the amended equality condition instantiated
on the concrete engine `eEx`, which retains both of its modes. -/
theorem c3_witness :
    (∑ i : Fin eEx.k, evrVal eEx.toSolvedEOF i) ≤ 1 ∧
    ((∑ i : Fin eEx.k, evrVal eEx.toSolvedEOF i) = 1 ↔
      ∀ j : Fin eEx.r, eEx.k ≤ (j : ℕ) → eEx.toSolvedEOF.S j = 0) := by
  have h := c3_explained_variance_ratio_bounds eEx.toSolvedEOF (by norm_num)
  exact ⟨h.2.1, h.2.2.2 ⟨⟨0, by decide⟩, by decide⟩⟩
